import Mathlib

/-!
Verification of the abbreviation-suggestion engine of `find_suggested_phrases.py`.

The development shallowly embeds the python source: python strings become
`String`, python lists become `List`, python dicts become insertion-ordered
association lists (`List (String × String)`), python sets become lists read
up to membership, and fallible python code (indexing that can raise
`IndexError`) returns `Option`.
-/

/-- Python `str.split()` treats these characters as whitespace. -/
def isPySpace (c : Char) : Bool :=
  c = ' ' || c = '\t' || c = '\n' || c = '\r' || c = '\x0b' || c = '\x0c'

/-- Split a character list at every character satisfying `p`, keeping empty
chunks (the chunk structure underlying python `str.split`). -/
def chunksP (p : Char → Bool) : List Char → List (List Char)
  | [] => [[]]
  | c :: cs =>
    match chunksP p cs with
    | [] => [[]]
    | h :: t => if p c then [] :: h :: t else (c :: h) :: t

/-- Python `phrase.split()`: split on whitespace runs and drop empty pieces. -/
def pySplit (s : String) : List String :=
  ((chunksP isPySpace s.data).filter (fun w => decide (w ≠ []))).map
    (fun w => (⟨w⟩ : String))

/-- Python `phrase.replace(" ", "")`. -/
def removeSpaces (s : String) : String :=
  ⟨s.data.filter (fun c => decide (c ≠ ' '))⟩

/-- Python `s[:n]` (never fails). -/
def strTake (s : String) (n : Nat) : String := ⟨s.data.take n⟩

/-- Python `s[-n:]` (never fails; the whole string when `n ≥ len`). -/
def strTakeLast (s : String) (n : Nat) : String := ⟨s.data.drop (s.data.length - n)⟩

/-- The one-character string at index `i`, as a total function (`""` out of
bounds); used to state results of successful python indexing. -/
def charStr (s : String) (i : Nat) : String := ⟨(s.data.drop i).take 1⟩

/-- Python `s[i]` for `i ≥ 0`: fails (raises `IndexError`) when out of bounds. -/
def strAt (s : String) (i : Nat) : Option String :=
  if i < s.data.length then some (charStr s i) else none

/-- Python `s[-n]` for `n ≥ 1`: fails when `len < n`. -/
def strAtNeg (s : String) (n : Nat) : Option String :=
  if s.data.length < n then none else some ⟨(s.data.drop (s.data.length - n)).take 1⟩

/-- Python `"".join([w[0] for w in words])` piecewise: the first character of
each word, failing if some word is empty. -/
def firstChars : List String → Option (List String)
  | [] => some []
  | w :: ws =>
    match strAt w 0, firstChars ws with
    | some c, some rest => some (c :: rest)
    | _, _ => none

/-- The three extra candidates produced when the phrase has more than one
word (`get_possible_abbrevs` lines 35-38): acronym, first letters of the
first two words (`words[0][0] + words[1][0]`), first two letters of the
first word plus the first letter of the second word.  `some []` when there
is at most one word (the `len(words) > 1` guard). -/
def multiwordAbbrevs (words : List String) : Option (List String) :=
  match words with
  | w :: v :: _ =>
    match firstChars words, strAt w 0, strAt v 0 with
    | some initials, some a, some b =>
        some [String.join initials, a ++ b, strTake w 2 ++ b]
    | _, _, _ => none
  | _ => some []

/-- The eleven candidates built from the space-removed form of the phrase
(`get_possible_abbrevs` lines 42-54), failing exactly when python indexing
(`phrase[0]`, `phrase[1]`, `phrase[-1]`) would raise. -/
def tailAbbrevs (c : String) : Option (List String) :=
  match strAt c 0, strAt c 1, strAtNeg c 1 with
  | some c0, some c1, some cl =>
    some [c0, c0 ++ cl, strTake c 2, c1, cl, c1, strTake c 3,
          strTake c 2 ++ cl, c0 ++ strTakeLast c 2, strTake c 4,
          strTake c 2 ++ strTakeLast c 2]
  | _, _, _ => none

/-- Embedding of `get_possible_abbrevs` (lines 27-56): candidate
abbreviations for a phrase, in order of preference; `none` models an
uncaught `IndexError`. -/
def get_possible_abbrevs (phrase : String) : Option (List String) :=
  if phrase.length < 2 then some [phrase]
  else
    match multiwordAbbrevs (pySplit phrase), tailAbbrevs (removeSpaces phrase) with
    | some m, some t => some (m ++ t)
    | _, _ => none

/-- The candidate order exactly as the spec (section 4.3) words it, in
terms of the word list and its concatenated form, for comparison with
`get_possible_abbrevs`. -/
def specAbbrevOrder (ws : List String) : List String :=
  let c : String := ⟨(ws.map String.data).flatten⟩
  (if 1 < ws.length then
    [String.join (ws.map (fun w => strTake w 1)),
     strTake (ws.headD "") 1 ++ strTake (ws.tail.headD "") 1,
     strTake (ws.headD "") 2 ++ strTake (ws.tail.headD "") 1]
   else []) ++
  [strTake c 1, strTake c 1 ++ strTakeLast c 1, strTake c 2,
   charStr c 1, strTakeLast c 1, charStr c 1,
   strTake c 3, strTake c 2 ++ strTakeLast c 1,
   strTake c 1 ++ strTakeLast c 2, strTake c 4,
   strTake c 2 ++ strTakeLast c 2]

/-- A row of the ranked phrase list: `(score, phrase, phrase_len, count)` as
produced by `get_best_phrases_to_shorten`; `match_abbrevs_to_phrases` reads
only `row[0]` and `row[1]`. -/
abbrev Row := Int × String × Int × Int

/-- A python dict modelled as an insertion-ordered association list with
unique keys; lookup returns the first match. -/
abbrev Dict := List (String × String)

/-- The selection test of `match_abbrevs_to_phrases` line 81:
`abbrev not in abbrev_set and len(abbrev) < len(phrase) - 1`. -/
def okCand (aset : List String) (phrase a : String) : Bool :=
  !aset.contains a && decide ((a.length : Int) < (phrase.length : Int) - 1)

/-- One iteration of the loop of `match_abbrevs_to_phrases` (lines 72-86) on
the state (shortcut dict, used-abbreviation set); `none` models an uncaught
exception from `get_possible_abbrevs`. -/
def assignStep (st : Dict × List String) (row : Row) : Option (Dict × List String) :=
  if (st.1.lookup row.2.1).isSome then some st
  else
    match get_possible_abbrevs row.2.1 with
    | none => none
    | some cands =>
      match cands.find? (okCand st.2 row.2.1) with
      | some a => some (st.1 ++ [(row.2.1, a)], a :: st.2)
      | none => some st

/-- The full loop of `match_abbrevs_to_phrases` over the ranked rows. -/
def assignLoop (st : Dict × List String) : List Row → Option (Dict × List String)
  | [] => some st
  | row :: rest =>
    match assignStep st row with
    | none => none
    | some st1 => assignLoop st1 rest

/-- Embedding of `match_abbrevs_to_phrases` (lines 59-88).  The python
function aliases the module-level `BLACKLIST` set as its used-abbreviation
set and the `presets` dict as its result dict and mutates both, so the
embedding threads the blacklist explicitly and returns the final
(dict, used-set) state; the python return value is the first component. -/
def match_abbrevs_to_phrases (results : List Row) (presets : Dict)
    (blacklist : List String) : Option (Dict × List String) :=
  assignLoop (presets, blacklist ++ presets.map Prod.snd) results

/-- Modelled from the spec: the table `PRESET_ABBREVS` is defined in
`preset_abbrevs.py`, which is not among the provided sources; the spec
describes it as a fixed hand-chosen Phrase → Abbreviation mapping and the
tests require the phrase "again" to be present. -/
def PRESET_ABBREVS : Dict := [("again", "ag")]

/-- Modelled from the spec: the set `BLACKLIST` is defined in
`preset_abbrevs.py`, which is not among the provided sources; the spec
describes it as a fixed set of strings, "typically single letters and
common short words", and the tests require "a" to be present.  Modelled as
the 26 lowercase letters. -/
def BLACKLIST : List String :=
  ["a", "b", "c", "d", "e", "f", "g", "h", "i", "j", "k", "l", "m",
   "n", "o", "p", "q", "r", "s", "t", "u", "v", "w", "x", "y", "z"]

/-- First characters of the abbreviations of each word, failing when some
word is not a key of the mapping (the compositional heuristic). -/
def lookupFirsts (shortcuts : Dict) : List String → Option String
  | [] => some ""
  | w :: ws =>
    match shortcuts.lookup w, lookupFirsts shortcuts ws with
    | some ab, some rest => some (strTake ab 1 ++ rest)
    | _, _ => none

/-- Modelled from the spec: `match_to_prev_abbrevs` is imported by the tests
from `find_suggested_phrases` but its definition is not among the provided
sources.  Per spec section 4.5 it tries, in order: the pluralization
heuristic (new phrase = existing key plus trailing "s" gives that key's
abbreviation with "s" appended), then the compositional heuristic (every
word of the new phrase is an existing key; return the concatenation of the
first character of each word's abbreviation in word order), and otherwise
returns the explicit no-match signal `none`. -/
def match_to_prev_abbrevs (shortcuts : Dict) (phrase : String) : Option String :=
  match (if strTakeLast phrase 1 = "s"
         then shortcuts.lookup (strTake phrase (phrase.length - 1))
         else none) with
  | some ab => some (ab ++ "s")
  | none =>
    match pySplit phrase with
    | [] => none
    | w :: ws => lookupFirsts shortcuts (w :: ws)

/-- All contiguous windows of `n` tokens (`nltk.util.ngrams`); empty when
the token list is shorter than `n`. -/
def ngramsOf (tokens : List String) (n : Nat) : List (List String) :=
  (List.range (tokens.length + 1 - n)).map (fun i => (tokens.drop i).take n)

/-- The n-grams contributed by one line, for all lengths `1..maxN`
(`corpus_to_ngrams` lines 109-113). -/
def lineNgrams (maxN : Nat) (line : String) : List (List String) :=
  (List.range maxN).flatMap (fun k => ngramsOf (pySplit line) (k + 1))

/-- All n-grams of the corpus, in the order the python loops count them. -/
def allGrams (corpus : List String) (maxN : Nat) : List (List String) :=
  corpus.flatMap (lineNgrams maxN)

/-- First-match lookup in a counter (python dict lookup). -/
def clookup (g : List String) : List (List String × Nat) → Option Nat
  | [] => none
  | kv :: t => if g = kv.1 then some kv.2 else clookup g t

/-- One `Counter` increment: bump the count of `g`, inserting it at the end
on first sight (python dict insertion order). -/
def counterAdd (c : List (List String × Nat)) (g : List String) :
    List (List String × Nat) :=
  match clookup g c with
  | some _ => c.map (fun kv => if kv.1 = g then (kv.1, kv.2 + 1) else kv)
  | none => c ++ [(g, 1)]

/-- Embedding of `corpus_to_ngrams` (lines 106-115): the `Counter` of all
n-grams of lengths `1..maxN`, as an insertion-ordered association list. -/
def corpus_to_ngrams (corpus : List String) (maxN : Nat) :
    List (List String × Nat) :=
  (allGrams corpus maxN).foldl counterAdd []

/-- The count mapping denoted by a `Counter`: `0` for missing keys, like
python `Counter` lookup. -/
def countOf (c : List (List String × Nat)) (g : List String) : Nat :=
  (clookup g c).getD 0

/-- Number of occurrences of the n-gram `g` in a list of n-grams. -/
def countGrams (g : List String) : List (List String) → Nat
  | [] => 0
  | x :: t => (if g = x then 1 else 0) + countGrams g t

/-- Word lists joined by single spaces, at the character level. -/
def joinChars : List (List Char) → List Char
  | [] => []
  | [w] => w
  | w :: v :: ws => w ++ ' ' :: joinChars (v :: ws)

/-- Python `" ".join(phrase_tuple)`. -/
def joinSp (ws : List String) : String := ⟨joinChars (ws.map String.data)⟩

/-- Python tuple `<` on rows, used by `sorted`. -/
def rowLtB (r1 r2 : Row) : Bool :=
  if r1.1 ≠ r2.1 then decide (r1.1 < r2.1)
  else if r1.2.1 ≠ r2.2.1 then decide (r1.2.1 < r2.2.1)
  else if r1.2.2.1 ≠ r2.2.2.1 then decide (r1.2.2.1 < r2.2.2.1)
  else decide (r1.2.2.2 < r2.2.2.2)

/-- Insert a row into a descending list, before the first strictly smaller
element. -/
def insertDesc (r : Row) : List Row → List Row
  | [] => [r]
  | x :: xs => if rowLtB x r then r :: x :: xs else x :: insertDesc r xs

/-- Python `sorted(phrase_data, reverse=True)` (insertion sort; ties are
impossible on ranker data since distinct counter keys join to distinct
phrase strings). -/
def sortDesc : List Row → List Row
  | [] => []
  | r :: rs => insertDesc r (sortDesc rs)

/-- Embedding of `get_best_phrases_to_shorten` (lines 118-134): filter out
rare (`count <= 3`) and too-short (`len < 2`) n-grams, score the rest,
sort best-first and keep the top `n_to_keep`. -/
def get_best_phrases_to_shorten (phrase_counts : List (List String × Nat))
    (n_to_keep : Nat) : List Row :=
  let phrase_data := phrase_counts.filterMap (fun pc =>
    if pc.2 ≤ 3 then none
    else
      let phrase := joinSp pc.1
      if phrase.length < 2 then none
      else some ((((phrase.length : Int) - 2) * pc.2, phrase,
                  (phrase.length : Int), (pc.2 : Int)) : Row))
  (sortDesc phrase_data).take n_to_keep

section EngineLemmas

lemma lookup_isSome_iff (l : Dict) (k : String) :
    (l.lookup k).isSome ↔ k ∈ l.map Prod.fst := by
  induction l with
  | nil => simp [List.lookup]
  | cons hd t ih =>
    simp only [List.lookup, List.map_cons, List.mem_cons]
    split
    · rename_i heq
      simp only [Option.isSome_some, true_iff]
      exact Or.inl (eq_of_beq heq)
    · rename_i heq
      rw [ih]
      have hne : ¬ k = hd.1 := fun hh => by simp [hh] at heq
      constructor
      · exact fun hm => Or.inr hm
      · rintro (h1 | h1)
        · exact absurd h1 hne
        · exact h1

lemma lookup_eq_none_iff (l : Dict) (k : String) :
    l.lookup k = none ↔ k ∉ l.map Prod.fst := by
  rw [← lookup_isSome_iff, Option.not_isSome_iff_eq_none]

lemma okCand_true {aset : List String} {phrase a : String}
    (h : okCand aset phrase a = true) :
    a ∉ aset ∧ (a.length : Int) < (phrase.length : Int) - 1 := by
  simp only [okCand, Bool.and_eq_true, Bool.not_eq_true', decide_eq_true_eq] at h
  exact ⟨fun hm => by simp_all, h.2⟩

lemma okCand_eq_false_iff {aset : List String} {phrase a : String} :
    okCand aset phrase a = false ↔
      a ∈ aset ∨ ¬ ((a.length : Int) < (phrase.length : Int) - 1) := by
  simp only [okCand, Bool.and_eq_false_iff, Bool.not_eq_false', decide_eq_false_iff_not]
  constructor
  · rintro (h | h)
    · exact Or.inl (List.elem_iff.mp h)
    · exact Or.inr h
  · rintro (h | h)
    · exact Or.inl (List.elem_iff.mpr h)
    · exact Or.inr h

/-- Exhaustive description of one loop iteration: either the phrase is
already a key and the state is unchanged, or candidate generation succeeds
and the first fitting candidate (if any) is appended to both components. -/
lemma assignStep_eq_some {st st' : Dict × List String} {row : Row}
    (h : assignStep st row = some st') :
    ((st.1.lookup row.2.1).isSome ∧ st' = st) ∨
    (st.1.lookup row.2.1 = none ∧ ∃ cands,
      get_possible_abbrevs row.2.1 = some cands ∧
      ((∃ a, cands.find? (okCand st.2 row.2.1) = some a ∧
             st' = (st.1 ++ [(row.2.1, a)], a :: st.2)) ∨
       (cands.find? (okCand st.2 row.2.1) = none ∧ st' = st))) := by
  unfold assignStep at h
  split at h
  · exact Or.inl ⟨by assumption, (Option.some.inj h).symm⟩
  · rename_i hns
    have hn : st.1.lookup row.2.1 = none := by
      cases hc : st.1.lookup row.2.1
      · rfl
      · exact absurd (by simp [hc]) hns
    refine Or.inr ⟨hn, ?_⟩
    split at h
    · cases h
    · rename_i cands hg
      refine ⟨cands, hg, ?_⟩
      split at h
      · rename_i a hf
        exact Or.inl ⟨a, hf, (Option.some.inj h).symm⟩
      · rename_i hf
        exact Or.inr ⟨hf, (Option.some.inj h).symm⟩

lemma assignStep_mono {st st' : Dict × List String} {row : Row}
    (h : assignStep st row = some st') :
    (∃ e, st'.1 = st.1 ++ e) ∧ (∀ x ∈ st.2, x ∈ st'.2) := by
  rcases assignStep_eq_some h with ⟨_, rfl⟩ | ⟨_, cands, _, ⟨a, _, rfl⟩ | ⟨_, rfl⟩⟩
  · exact ⟨⟨[], (List.append_nil _).symm⟩, fun x hx => hx⟩
  · exact ⟨⟨[(row.2.1, a)], rfl⟩, fun x hx => List.mem_cons_of_mem _ hx⟩
  · exact ⟨⟨[], (List.append_nil _).symm⟩, fun x hx => hx⟩

lemma assignLoop_mono : ∀ (rs : List Row) (st st' : Dict × List String),
    assignLoop st rs = some st' →
    (∃ e, st'.1 = st.1 ++ e) ∧ (∀ x ∈ st.2, x ∈ st'.2) := by
  intro rs
  induction rs with
  | nil =>
    intro st st' h
    cases Option.some.inj h
    exact ⟨⟨[], (List.append_nil _).symm⟩, fun x hx => hx⟩
  | cons row rest ih =>
    intro st st' h
    cases hs : assignStep st row with
    | none => rw [assignLoop, hs] at h; cases h
    | some st1 =>
      rw [assignLoop, hs] at h
      obtain ⟨⟨e1, he1⟩, hm1⟩ := assignStep_mono hs
      obtain ⟨⟨e2, he2⟩, hm2⟩ := ih st1 st' h
      exact ⟨⟨e1 ++ e2, by rw [he2, he1, List.append_assoc]⟩,
             fun x hx => hm2 x (hm1 x hx)⟩

/-- Any property preserved by one iteration is preserved by the loop. -/
lemma assignLoop_inv (P : Dict × List String → Prop)
    (hstep : ∀ st row st', P st → assignStep st row = some st' → P st') :
    ∀ (rs : List Row) (st st'), P st → assignLoop st rs = some st' → P st' := by
  intro rs
  induction rs with
  | nil =>
    intro st st' hP h
    cases Option.some.inj h
    exact hP
  | cons row rest ih =>
    intro st st' hP h
    cases hs : assignStep st row with
    | none => rw [assignLoop, hs] at h; cases h
    | some st1 =>
      rw [assignLoop, hs] at h
      exact ih st1 st' (hstep st row st1 hP hs) h

lemma nodup_append_single {l : List String} {x : String}
    (hl : l.Nodup) (hx : x ∉ l) : (l ++ [x]).Nodup := by
  simp [List.nodup_append, hl, hx]

end EngineLemmas

/-- C2: every phrase assigned an abbreviation in a resulting registry saves
at least two characters, provided the preset entries already do (the engine
only ever adds candidates passing the `len(abbrev) < len(phrase) - 1`
check of line 81). -/
theorem assigned_abbrev_saves_two_chars
    (results : List Row) (presets : Dict) (bl : List String)
    (d : Dict) (s : List String)
    (hp : ∀ pa ∈ presets, ((pa.2 : String).length : Int) ≤ ((pa.1 : String).length : Int) - 2)
    (hrun : match_abbrevs_to_phrases results presets bl = some (d, s)) :
    ∀ p a, (p, a) ∈ d → (a.length : Int) ≤ (p.length : Int) - 2 := by
  unfold match_abbrevs_to_phrases at hrun
  have hinv := assignLoop_inv
    (fun st => ∀ pa ∈ st.1, ((pa.2 : String).length : Int) ≤ ((pa.1 : String).length : Int) - 2)
    (by
      intro st row st' hP hs
      rcases assignStep_eq_some hs with ⟨_, rfl⟩ | ⟨_, cands, _, ⟨a, hf, rfl⟩ | ⟨_, rfl⟩⟩
      · exact hP
      · intro pa hpa
        rcases List.mem_append.mp hpa with hold | hnew
        · exact hP pa hold
        · have hlen := (okCand_true (List.find?_some hf)).2
          have hpe : pa = (row.2.1, a) := by simpa using hnew
          subst hpe
          simp only
          omega
      · exact hP)
    results (presets, bl ++ presets.map Prod.snd) (d, s) hp hrun
  intro p a hmem
  exact hinv (p, a) hmem

/-- Witness for C2 at a concrete run. -/
theorem assigned_abbrev_saves_two_chars_witness :
    (("zz" : String).length : Int) ≤ (("zzzzz" : String).length : Int) - 2 :=
  assigned_abbrev_saves_two_chars [(90, "zzzzz", 0, 0)] [("because", "bc")] ["z"]
    [("because", "bc"), ("zzzzz", "zz")] ["zz", "z", "bc"]
    (by decide) (by decide) "zzzzz" "zz" (by decide)

/-- C1: in every registry the engine produces from a well-formed preset
table (distinct keys, pairwise-distinct abbreviations, abbreviations off
the blacklist), distinct phrases carry distinct abbreviations and no
abbreviation is blacklisted. -/
theorem registry_abbrevs_distinct_and_off_blacklist
    (results : List Row) (presets : Dict) (bl : List String)
    (d : Dict) (s : List String)
    (hk : (presets.map Prod.fst).Nodup)
    (hv : (presets.map Prod.snd).Nodup)
    (hb : ∀ pa ∈ presets, pa.2 ∉ bl)
    (hrun : match_abbrevs_to_phrases results presets bl = some (d, s)) :
    (∀ p1 a1 p2 a2, (p1, a1) ∈ d → (p2, a2) ∈ d → p1 ≠ p2 → a1 ≠ a2) ∧
    (∀ p a, (p, a) ∈ d → a ∉ bl) := by
  unfold match_abbrevs_to_phrases at hrun
  have hinv := assignLoop_inv
    (fun st => (st.1.map Prod.fst).Nodup ∧ (st.1.map Prod.snd).Nodup ∧
      (∀ pa ∈ st.1, pa.2 ∉ bl) ∧ (∀ pa ∈ st.1, pa.2 ∈ st.2) ∧ (∀ b ∈ bl, b ∈ st.2))
    (by
      intro st row st' hP hs
      obtain ⟨hPk, hPv, hPb, hPvs, hPbl⟩ := hP
      rcases assignStep_eq_some hs with ⟨_, rfl⟩ | ⟨hln, cands, _, ⟨a, hf, rfl⟩ | ⟨_, rfl⟩⟩
      · exact ⟨hPk, hPv, hPb, hPvs, hPbl⟩
      · obtain ⟨hnset, _⟩ := okCand_true (List.find?_some hf)
        have hnotkey : row.2.1 ∉ st.1.map Prod.fst := (lookup_eq_none_iff _ _).mp hln
        have hnotval : a ∉ st.1.map Prod.snd := by
          intro hmem
          obtain ⟨pa, hpa, hpe⟩ := List.mem_map.mp hmem
          exact hnset (hpe ▸ hPvs pa hpa)
        refine ⟨?_, ?_, ?_, ?_, ?_⟩
        · simpa [List.map_append] using nodup_append_single hPk hnotkey
        · simpa [List.map_append] using nodup_append_single hPv hnotval
        · intro pa hpa
          rcases List.mem_append.mp hpa with hold | hnew
          · exact hPb pa hold
          · have hpe : pa = (row.2.1, a) := by simpa using hnew
            subst hpe
            exact fun hblm => hnset (hPbl a hblm)
        · intro pa hpa
          rcases List.mem_append.mp hpa with hold | hnew
          · exact List.mem_cons_of_mem _ (hPvs pa hold)
          · have hpe : pa = (row.2.1, a) := by simpa using hnew
            subst hpe
            exact List.mem_cons_self _ _
        · exact fun b hbm => List.mem_cons_of_mem _ (hPbl b hbm)
      · exact ⟨hPk, hPv, hPb, hPvs, hPbl⟩)
    results (presets, bl ++ presets.map Prod.snd) (d, s)
    ⟨hk, hv, hb,
     fun pa hpa => List.mem_append.mpr (Or.inr (List.mem_map_of_mem _ hpa)),
     fun b hbm => List.mem_append.mpr (Or.inl hbm)⟩ hrun
  obtain ⟨_, hdv, hdb, _, _⟩ := hinv
  constructor
  · intro p1 a1 p2 a2 h1 h2 hne heq
    subst heq
    exact hne (congrArg Prod.fst (List.inj_on_of_nodup_map hdv h1 h2 rfl))
  · exact fun p a hmem => hdb (p, a) hmem

/-- Witness for C1 at a concrete run over the modelled preset table and
blacklist. -/
theorem registry_abbrevs_distinct_and_off_blacklist_witness :
    ("ag" : String) ≠ "qq" ∧ ("qq" : String) ∉ BLACKLIST :=
  have h := registry_abbrevs_distinct_and_off_blacklist
    [(90, "qqqq", 0, 0)] PRESET_ABBREVS BLACKLIST
    [("again", "ag"), ("qqqq", "qq")] ("qq" :: (BLACKLIST ++ ["ag"]))
    (by decide) (by decide) (by decide) (by decide)
  ⟨h.1 "again" "ag" "qqqq" "qq" (by decide) (by decide) (by decide),
   h.2 "qqqq" "qq" (by decide)⟩

/-- C7 counterexample: the engine does NOT leave the blacklist set and the
preset dict unchanged.  `abbrev_set = BLACKLIST` and `shortcut_dict =
presets` (lines 67-68) alias the inputs, so every assignment is stored into
them: here the returned dict (the presets object after the call) gained an
entry and the final used-abbreviation set (the blacklist object after the
call) contains "zz", which the original blacklist did not. -/
theorem engine_mutates_tables_counterexample :
    match_abbrevs_to_phrases [(90, "zzzzz", 0, 0)] [] ["z"]
      = some ([("zzzzz", "zz")], ["zz", "z"])
    ∧ ([("zzzzz", "zz")] : Dict) ≠ []
    ∧ ("zz" ∈ ["zz", "z"] ∧ "zz" ∉ ["z"]) := by decide

/-- C7 amended: after a run the preset dict object holds its original
entries followed by the new assignments, and the blacklist object holds
exactly the original blacklist together with every abbreviation value of
the resulting registry. -/
theorem engine_final_state_extends_tables
    (results : List Row) (presets : Dict) (bl : List String)
    (d : Dict) (s : List String)
    (hrun : match_abbrevs_to_phrases results presets bl = some (d, s)) :
    d.take presets.length = presets ∧
    (∀ x, x ∈ s ↔ x ∈ bl ∨ x ∈ d.map Prod.snd) := by
  unfold match_abbrevs_to_phrases at hrun
  constructor
  · obtain ⟨e, he⟩ := (assignLoop_mono results _ _ hrun).1
    have he' : d = presets ++ e := he
    rw [he', List.take_left]
  · have hinv := assignLoop_inv
      (fun st => ∀ x, x ∈ st.2 ↔ x ∈ bl ∨ x ∈ st.1.map Prod.snd)
      (by
        intro st row st' hP hs
        rcases assignStep_eq_some hs with ⟨_, rfl⟩ | ⟨_, cands, _, ⟨a, hf, rfl⟩ | ⟨_, rfl⟩⟩
        · exact hP
        · intro x
          have hx := hP x
          simp only [List.mem_cons, List.map_append, List.mem_append,
                     List.map_cons, List.map_nil, List.mem_singleton] at hx ⊢
          tauto
        · exact hP)
      results (presets, bl ++ presets.map Prod.snd) (d, s)
      (fun x => by simp [List.mem_append]) hrun
    exact hinv

/-- Witness for the amended C7 at a concrete run. -/
theorem engine_final_state_extends_tables_witness :
    ([("again", "ag"), ("zzzzz", "zz")] : Dict).take 1 = [("again", "ag")] ∧
    (("zz" : String) ∈ ["zz", "z", "ag"] ↔
      ("zz" : String) ∈ ["z"] ∨ ("zz" : String) ∈ ["ag", "zz"]) :=
  have h := engine_final_state_extends_tables [(90, "zzzzz", 0, 0)]
    [("again", "ag")] ["z"] [("again", "ag"), ("zzzzz", "zz")] ["zz", "z", "ag"]
    (by decide)
  ⟨h.1, h.2 "zz"⟩

/-- Re-running the loop from the final state of a completed run (with any
used-set at least as large) changes nothing: every phrase assigned by the
first run is now a key and is skipped, and every phrase the first run could
not serve still has no usable candidate, since its candidates failed
against a subset of the current used-set or for length. -/
lemma assignLoop_again : ∀ (rs : List Row) (d0 : Dict) (s0 : List String)
    (d : Dict) (s t : List String),
    assignLoop (d0, s0) rs = some (d, s) → (∀ x ∈ s, x ∈ t) →
    assignLoop (d, t) rs = some (d, t) := by
  intro rs
  induction rs with
  | nil =>
    intro d0 s0 d s t h hsub
    injection Option.some.inj h with h1 h2
    subst h1
    rfl
  | cons row rest ih =>
    intro d0 s0 d s t h hsub
    cases hs : assignStep (d0, s0) row with
    | none => rw [assignLoop, hs] at h; cases h
    | some st1 =>
      rw [assignLoop, hs] at h
      have hskip : ∀ hk : row.2.1 ∈ d.map Prod.fst,
          assignLoop (d, t) (row :: rest) = some (d, t) := by
        intro hk
        have hstep2 : assignStep (d, t) row = some (d, t) := by
          unfold assignStep
          have hl2 : ((d, t).1.lookup row.2.1).isSome = true :=
            (lookup_isSome_iff _ _).mpr hk
          simp [hl2]
        rw [assignLoop, hstep2]
        exact ih st1.1 st1.2 d s t h hsub
      rcases assignStep_eq_some hs with ⟨hlook, hst⟩ | ⟨hln, cands, hg, ⟨a, hf, hst⟩ | ⟨hf, hst⟩⟩
      · subst hst
        obtain ⟨e, he⟩ := (assignLoop_mono rest _ _ h).1
        have he' : d = d0 ++ e := he
        exact hskip (by
          rw [he', List.map_append]
          exact List.mem_append.mpr (Or.inl ((lookup_isSome_iff _ _).mp hlook)))
      · subst hst
        obtain ⟨e, he⟩ := (assignLoop_mono rest _ _ h).1
        have he' : d = (d0 ++ [(row.2.1, a)]) ++ e := he
        exact hskip (by rw [he']; simp)
      · subst hst
        by_cases hl2 : (d.lookup row.2.1).isSome
        · exact hskip ((lookup_isSome_iff _ _).mp hl2)
        · have hset := (assignLoop_mono rest _ _ h).2
          have hnone : cands.find? (okCand t row.2.1) = none := by
            rw [List.find?_eq_none]
            intro x hx hokt
            rcases okCand_true hokt with ⟨hnt, hlen⟩
            have hfx : okCand s0 row.2.1 x = false :=
              Bool.eq_false_iff.mpr (List.find?_eq_none.mp hf x hx)
            rcases okCand_eq_false_iff.mp hfx with hin | hnl
            · exact hnt (hsub x (hset x hin))
            · exact hnl hlen
          have hstep2 : assignStep (d, t) row = some (d, t) := by
            unfold assignStep
            simp only [Bool.not_eq_true] at hl2
            simp [hl2, hg, hnone]
          rw [assignLoop, hstep2]
          exact ih d0 s0 d s t h hsub

/-- C5: re-running the Assignment Engine with the same ranked list and the
same (now mutated, per the aliasing of lines 67-68) preset and blacklist
objects reproduces exactly the same registry. -/
theorem engine_rerun_same_registry
    (results : List Row) (presets : Dict) (bl : List String)
    (d : Dict) (s : List String)
    (hrun : match_abbrevs_to_phrases results presets bl = some (d, s)) :
    (match_abbrevs_to_phrases results d s).map Prod.fst = some d := by
  unfold match_abbrevs_to_phrases at hrun ⊢
  have h2 := assignLoop_again results presets (bl ++ presets.map Prod.snd)
    d s (s ++ d.map Prod.snd) hrun (fun x hx => List.mem_append.mpr (Or.inl hx))
  rw [h2]
  rfl

/-- Witness for C5 at a concrete run. -/
theorem engine_rerun_same_registry_witness :
    (match_abbrevs_to_phrases [(90, "zzzzz", 0, 0)] [("zzzzz", "zz")]
      ["zz", "z"]).map Prod.fst = some [("zzzzz", "zz")] :=
  engine_rerun_same_registry [(90, "zzzzz", 0, 0)] [] ["z"]
    [("zzzzz", "zz")] ["zz", "z"] (by decide)

/-- C3: on the ranked input `[(100,"zzz"), (90,"zzzzz"), (80,"zz xx")]`
(rows carry the test's trailing `phrase_len`/`count` fields, which the
engine ignores) with the modelled preset table and blacklist, the engine
maps "zzzzz" to "zz" and "zz xx" to "zx", keeps every preset entry
unchanged, and assigns nothing to "zzz" ("z", its only candidate short
enough to save two characters, is blacklisted). -/
theorem engine_on_ranked_zzz_input :
    (match_abbrevs_to_phrases
        [(100, "zzz", 0, 0), (90, "zzzzz", 0, 0), (80, "zz xx", 0, 0)]
        PRESET_ABBREVS BLACKLIST).map Prod.fst
      = some (PRESET_ABBREVS ++ [("zzzzz", "zz"), ("zz xx", "zx")])
    ∧ (PRESET_ABBREVS ++ [("zzzzz", "zz"), ("zz xx", "zx")]).lookup "zzz" = none
    ∧ (∀ pa ∈ PRESET_ABBREVS,
        (PRESET_ABBREVS ++ [("zzzzz", "zz"), ("zz xx", "zx")]).lookup pa.1
          = some pa.2) := by decide

/-- C8: an empty corpus yields an empty n-gram counter, the ranker returns
an empty candidate list on it, and the engine run on that empty list
returns the preset table unchanged (with the used-set seeded as always),
with no error. -/
theorem empty_corpus_registry_is_presets (maxN k : Nat) (presets : Dict)
    (bl : List String) :
    corpus_to_ngrams [] maxN = [] ∧
    get_best_phrases_to_shorten (corpus_to_ngrams [] maxN) k = [] ∧
    match_abbrevs_to_phrases (get_best_phrases_to_shorten (corpus_to_ngrams [] maxN) k)
        presets bl
      = some (presets, bl ++ presets.map Prod.snd) := by
  have h1 : corpus_to_ngrams [] maxN = [] := rfl
  have h2 : get_best_phrases_to_shorten [] k = [] := by
    simp [get_best_phrases_to_shorten, sortDesc]
  refine ⟨h1, by rw [h1]; exact h2, ?_⟩
  rw [h1, h2]
  rfl

section CounterLemmas

lemma clookup_map_incr (c : List (List String × Nat)) (g a : List String) :
    clookup g (c.map (fun kv => if kv.1 = a then (kv.1, kv.2 + 1) else kv))
      = (clookup g c).map (fun v => if g = a then v + 1 else v) := by
  induction c with
  | nil => rfl
  | cons kv t ih =>
    simp only [List.map_cons, clookup]
    by_cases hka : kv.1 = a
    · rw [if_pos hka]
      by_cases hgk : g = kv.1
      · simp [clookup, hgk, hka, hgk.trans hka]
      · simp [clookup, hgk, ih]
    · rw [if_neg hka]
      by_cases hgk : g = kv.1
      · have hga : ¬ g = a := fun hh => hka (hgk ▸ hh)
        simp [hgk, hga, hka]
      · simp [hgk, ih]

lemma clookup_append (c c2 : List (List String × Nat)) (g : List String) :
    clookup g (c ++ c2)
      = match clookup g c with
        | some v => some v
        | none => clookup g c2 := by
  induction c with
  | nil => rfl
  | cons kv t ih =>
    simp only [List.cons_append, clookup]
    by_cases hgk : g = kv.1
    · simp [hgk]
    · simp [hgk, ih]

lemma countOf_counterAdd (c : List (List String × Nat)) (a g : List String) :
    countOf (counterAdd c a) g = countOf c g + (if g = a then 1 else 0) := by
  unfold counterAdd countOf
  cases hc : clookup a c with
  | some v =>
    rw [clookup_map_incr]
    by_cases hga : g = a
    · subst hga
      rw [hc]
      simp
    · cases hg : clookup g c <;> simp [hga]
  | none =>
    rw [clookup_append]
    by_cases hga : g = a
    · subst hga
      rw [hc]
      simp [clookup]
    · cases hg : clookup g c with
      | some v => simp [hga]
      | none => simp [clookup, hga]

lemma countOf_foldl (l : List (List String)) :
    ∀ (c : List (List String × Nat)) (g : List String),
      countOf (l.foldl counterAdd c) g = countOf c g + countGrams g l := by
  induction l with
  | nil => intro c g; simp [countGrams]
  | cons a t ih =>
    intro c g
    rw [List.foldl_cons, ih, countOf_counterAdd]
    simp only [countGrams]
    omega

lemma countOf_corpus (corpus : List String) (maxN : Nat) (g : List String) :
    countOf (corpus_to_ngrams corpus maxN) g = countGrams g (allGrams corpus maxN) := by
  unfold corpus_to_ngrams
  rw [countOf_foldl]
  simp [countOf, clookup]

lemma countGrams_perm {l1 l2 : List (List String)} (g : List String)
    (h : l1.Perm l2) : countGrams g l1 = countGrams g l2 := by
  induction h with
  | nil => rfl
  | cons x _ ih => simp only [countGrams, ih]
  | swap x y l => simp only [countGrams]; omega
  | trans _ _ ih1 ih2 => exact ih1.trans ih2

end CounterLemmas

/-- C9: the n-gram count mapping does not depend on the order of the corpus
lines — permuting the lines yields the same token-tuple → count mapping. -/
theorem ngram_counts_line_order_invariant (maxN : Nat) (c1 c2 : List String)
    (hp : c1.Perm c2) :
    countOf (corpus_to_ngrams c1 maxN) = countOf (corpus_to_ngrams c2 maxN) := by
  funext g
  rw [countOf_corpus, countOf_corpus]
  exact countGrams_perm g (hp.flatMap_right (lineNgrams maxN))

/-- Witness for C9 on a concrete two-line corpus and its swap. -/
theorem ngram_counts_line_order_invariant_witness :
    countOf (corpus_to_ngrams ["a b", "c"] 2)
      = countOf (corpus_to_ngrams ["c", "a b"] 2) :=
  ngram_counts_line_order_invariant 2 ["a b", "c"] ["c", "a b"] (by decide)

section StringLemmas

lemma chunksP_ne_nil (p : Char → Bool) (cs : List Char) : chunksP p cs ≠ [] := by
  cases cs with
  | nil => simp [chunksP]
  | cons c t =>
    simp only [chunksP]
    cases chunksP p t with
    | nil => simp
    | cons h r => by_cases hp : p c <;> simp [hp]

lemma chunksP_space_cons (rest : List Char) :
    chunksP isPySpace (' ' :: rest) = [] :: chunksP isPySpace rest := by
  cases hc : chunksP isPySpace rest with
  | nil => exact absurd hc (chunksP_ne_nil _ _)
  | cons h t => simp [chunksP, hc, isPySpace]

lemma chunksP_append_word : ∀ (w cs : List Char),
    (∀ c ∈ w, isPySpace c = false) →
    chunksP isPySpace (w ++ cs)
      = (w ++ (chunksP isPySpace cs).headD []) :: (chunksP isPySpace cs).tail := by
  intro w
  induction w with
  | nil =>
    intro cs _
    cases hc : chunksP isPySpace cs with
    | nil => exact absurd hc (chunksP_ne_nil _ _)
    | cons h t => simp [hc]
  | cons c w ih =>
    intro cs hw
    have hc : isPySpace c = false := hw c (List.mem_cons_self _ _)
    have hrest := ih cs (fun x hx => hw x (List.mem_cons_of_mem _ hx))
    have hca : (c :: w) ++ cs = c :: (w ++ cs) := rfl
    rw [hca, chunksP, hrest]
    simp [hc]

lemma chunks_joinChars : ∀ (ls : List (List Char)),
    (∀ l ∈ ls, l ≠ [] ∧ ∀ c ∈ l, isPySpace c = false) →
    (chunksP isPySpace (joinChars ls)).filter (fun w => decide (w ≠ [])) = ls := by
  intro ls
  induction ls with
  | nil => intro _; rfl
  | cons w tail ih =>
    intro hls
    obtain ⟨hw, hwsp⟩ := hls w (List.mem_cons_self _ _)
    cases tail with
    | nil =>
      have h1 : chunksP isPySpace (joinChars [w]) = [w] := by
        have := chunksP_append_word w [] hwsp
        simpa [joinChars, chunksP] using this
      simp [h1, hw]
    | cons v t =>
      have hrec := ih (fun l hl => hls l (List.mem_cons_of_mem _ hl))
      have h1 : chunksP isPySpace (joinChars (w :: v :: t))
          = w :: chunksP isPySpace (joinChars (v :: t)) := by
        rw [joinChars, chunksP_append_word w _ hwsp, chunksP_space_cons]
        simp
      rw [h1]
      simp only [List.filter_cons, decide_eq_true_eq]
      rw [if_pos (by simpa using hw)]
      rw [hrec]

lemma map_mk_data : ∀ ws : List String,
    ws.map (fun w => (⟨w.data⟩ : String)) = ws := by
  intro ws
  induction ws with
  | nil => rfl
  | cons w t ih => simp only [List.map_cons, ih]

/-- Splitting the space-join of nonempty whitespace-free words gives the
words back. -/
lemma pySplit_joinSp (ws : List String)
    (hws : ∀ w ∈ ws, w.data ≠ [] ∧ ∀ c ∈ w.data, isPySpace c = false) :
    pySplit (joinSp ws) = ws := by
  unfold pySplit joinSp
  have h := chunks_joinChars (ws.map String.data) (by
    intro l hl
    obtain ⟨w, hwm, rfl⟩ := List.mem_map.mp hl
    exact hws w hwm)
  simp only at h ⊢
  rw [h, List.map_map]
  exact map_mk_data ws

lemma filter_joinChars : ∀ (ls : List (List Char)),
    (∀ l ∈ ls, ∀ c ∈ l, isPySpace c = false) →
    (joinChars ls).filter (fun c => decide (c ≠ ' ')) = ls.flatten := by
  intro ls
  induction ls with
  | nil => intro _; rfl
  | cons w tail ih =>
    intro hls
    have hw : ∀ c ∈ w, (fun c => decide (c ≠ ' ')) c = true := by
      intro c hc
      have := hls w (List.mem_cons_self _ _) c hc
      simp only [decide_eq_true_eq]
      intro hsp
      rw [hsp] at this
      simp [isPySpace] at this
    cases tail with
    | nil =>
      have h1 : joinChars [w] = w := rfl
      rw [h1, List.filter_eq_self.mpr hw]
      simp
    | cons v t =>
      have hrec := ih (fun l hl => hls l (List.mem_cons_of_mem _ hl))
      have h1 : joinChars (w :: v :: t) = w ++ ' ' :: joinChars (v :: t) := rfl
      have h2 : (' ' :: joinChars (v :: t)).filter (fun c => decide (c ≠ ' '))
          = (joinChars (v :: t)).filter (fun c => decide (c ≠ ' ')) := by
        rw [List.filter_cons_of_neg]
        simp
      rw [h1, List.filter_append, List.filter_eq_self.mpr hw, h2, hrec]
      simp

/-- The space-removed form of a space-join of space-free words is their
concatenation. -/
lemma removeSpaces_joinSp (ws : List String)
    (hws : ∀ w ∈ ws, ∀ c ∈ w.data, isPySpace c = false) :
    removeSpaces (joinSp ws) = ⟨(ws.map String.data).flatten⟩ := by
  unfold removeSpaces joinSp
  congr 1
  exact filter_joinChars (ws.map String.data) (by
    intro l hl
    obtain ⟨w, hwm, rfl⟩ := List.mem_map.mp hl
    exact hws w hwm)

lemma strAt_lt {s : String} {i : Nat} (h : i < s.data.length) :
    strAt s i = some (charStr s i) := by
  unfold strAt
  rw [if_pos h]

lemma strAtNeg_one {s : String} (h : 1 ≤ s.data.length) :
    strAtNeg s 1 = some (strTakeLast s 1) := by
  unfold strAtNeg strTakeLast
  rw [if_neg (by omega)]
  congr 1
  apply congrArg
  apply List.take_of_length_le
  rw [List.length_drop]
  omega

lemma tailAbbrevs_len2 {c : String} (h : 2 ≤ c.data.length) :
    tailAbbrevs c
      = some [strTake c 1, strTake c 1 ++ strTakeLast c 1, strTake c 2,
              charStr c 1, strTakeLast c 1, charStr c 1,
              strTake c 3, strTake c 2 ++ strTakeLast c 1,
              strTake c 1 ++ strTakeLast c 2, strTake c 4,
              strTake c 2 ++ strTakeLast c 2] := by
  unfold tailAbbrevs
  rw [strAt_lt (by omega), strAt_lt (by omega), strAtNeg_one (by omega)]
  rfl

lemma firstChars_all_nonempty : ∀ (ws : List String),
    (∀ w ∈ ws, w.data ≠ []) →
    firstChars ws = some (ws.map (fun w => strTake w 1)) := by
  intro ws
  induction ws with
  | nil => intro _; rfl
  | cons w t ih =>
    intro hws
    have hw : strAt w 0 = some (charStr w 0) :=
      strAt_lt (by
        have := hws w (List.mem_cons_self _ _)
        cases hd : w.data with
        | nil => exact absurd hd this
        | cons c r => simp [hd])
    have ht := ih (fun u hu => hws u (List.mem_cons_of_mem _ hu))
    simp only [firstChars, hw, ht, List.map_cons]
    rfl

lemma strAt_zero {w : String} (hw : w.data ≠ []) :
    strAt w 0 = some (strTake w 1) := by
  rw [strAt_lt (List.length_pos.mpr hw)]
  rfl

lemma multiwordAbbrevs_multi (w v : String) (t : List String)
    (hw : w.data ≠ []) (hv : v.data ≠ []) (ht : ∀ u ∈ t, u.data ≠ []) :
    multiwordAbbrevs (w :: v :: t)
      = some [String.join ((w :: v :: t).map (fun u => strTake u 1)),
              strTake w 1 ++ strTake v 1, strTake w 2 ++ strTake v 1] := by
  have hall : ∀ u ∈ w :: v :: t, u.data ≠ [] := by
    intro u hu
    rcases List.mem_cons.mp hu with rfl | hu2
    · exact hw
    · rcases List.mem_cons.mp hu2 with rfl | hu3
      · exact hv
      · exact ht u hu3
  have h0 : multiwordAbbrevs (w :: v :: t)
      = match firstChars (w :: v :: t), strAt w 0, strAt v 0 with
        | some initials, some a, some b =>
            some [String.join initials, a ++ b, strTake w 2 ++ b]
        | _, _, _ => none := rfl
  rw [h0, firstChars_all_nonempty _ hall, strAt_zero hw, strAt_zero hv]

end StringLemmas

/-- C4: on well-formed phrases (nonempty whitespace-free words joined by
single spaces, at least 2 characters), `get_possible_abbrevs` produces
exactly the candidate list the spec describes, in that order; a phrase
shorter than 2 characters yields itself as sole candidate; and the
concrete inclusion examples hold. -/
theorem candidate_order_follows_spec :
    (∀ ws : List String, ws ≠ [] →
      (∀ w ∈ ws, w.data ≠ [] ∧ ∀ ch ∈ w.data, isPySpace ch = false) →
      2 ≤ (joinSp ws).length →
      get_possible_abbrevs (joinSp ws) = some (specAbbrevOrder ws))
    ∧ (∀ p : String, p.length < 2 → get_possible_abbrevs p = some [p])
    ∧ ("t" ∈ (get_possible_abbrevs "the").getD []
        ∧ "th" ∈ (get_possible_abbrevs "the").getD [])
    ∧ ("dt" ∈ (get_possible_abbrevs "different").getD []
        ∧ "dif" ∈ (get_possible_abbrevs "different").getD []
        ∧ "diff" ∈ (get_possible_abbrevs "different").getD [])
    ∧ "itr" ∈ (get_possible_abbrevs "in the robots").getD [] := by
  refine ⟨?_, ?_, by decide, by decide, by decide⟩
  · intro ws hne hws hlen
    have hsplit : pySplit (joinSp ws) = ws := pySplit_joinSp ws hws
    have hrm : removeSpaces (joinSp ws) = ⟨(ws.map String.data).flatten⟩ :=
      removeSpaces_joinSp ws (fun w hw => (hws w hw).2)
    have hclen : 2 ≤ ((ws.map String.data).flatten).length := by
      rcases ws with _ | ⟨w, _ | ⟨v, t⟩⟩
      · exact absurd rfl hne
      · have : (joinSp [w]).length = w.data.length := rfl
        rw [this] at hlen
        simpa using hlen
      · have hw1 : 1 ≤ w.data.length :=
          List.length_pos.mpr (hws w (List.mem_cons_self _ _)).1
        have hv1 : 1 ≤ v.data.length :=
          List.length_pos.mpr
            (hws v (List.mem_cons_of_mem _ (List.mem_cons_self _ _))).1
        simp only [List.map_cons, List.flatten_cons, List.length_append]
        omega
    unfold get_possible_abbrevs
    rw [if_neg (by omega), hsplit, hrm]
    rcases ws with _ | ⟨w, _ | ⟨v, t⟩⟩
    · exact absurd rfl hne
    · rw [show multiwordAbbrevs [w] = some [] from rfl,
          @tailAbbrevs_len2 ⟨(List.map String.data [w]).flatten⟩ hclen]
      simp [specAbbrevOrder]
    · have hw' := hws w (List.mem_cons_self _ _)
      have hv' := hws v (List.mem_cons_of_mem _ (List.mem_cons_self _ _))
      have ht' : ∀ u ∈ t, u.data ≠ [] := fun u hu =>
        (hws u (List.mem_cons_of_mem _ (List.mem_cons_of_mem _ hu))).1
      rw [multiwordAbbrevs_multi w v t hw'.1 hv'.1 ht',
          @tailAbbrevs_len2 ⟨(List.map String.data (w :: v :: t)).flatten⟩ hclen]
      simp [specAbbrevOrder]
  · intro p hp
    unfold get_possible_abbrevs
    rw [if_pos hp]

/-- Witness for C4 at a concrete two-word phrase. -/
theorem candidate_order_follows_spec_witness :
    get_possible_abbrevs (joinSp ["zz", "xx"]) = some (specAbbrevOrder ["zz", "xx"]) :=
  candidate_order_follows_spec.1 ["zz", "xx"] (by decide) (by decide) (by decide)

/-- C10 counterexample: "a " has length 2 and contains a non-space
character, yet `get_possible_abbrevs` fails on it (its space-removed form
"a" has length 1, so the python `phrase[1]` raises `IndexError`), instead
of returning a non-empty candidate list. -/
theorem candidate_generation_crash_counterexample :
    ("a " : String).length = 2
    ∧ ('a' ∈ ("a " : String).data ∧ 'a' ≠ ' ')
    ∧ get_possible_abbrevs "a " = none := by decide

/-- C10 amended: for every string of length at least 2 with at least TWO
non-space characters, `get_possible_abbrevs` succeeds and returns a
non-empty candidate list. -/
theorem candidate_generation_safe (s : String)
    (h1 : 2 ≤ s.length)
    (h2 : 2 ≤ (s.data.filter (fun c => decide (c ≠ ' '))).length) :
    (get_possible_abbrevs s).map List.isEmpty = some false := by
  unfold get_possible_abbrevs
  rw [if_neg (by omega)]
  have hwords : ∀ w ∈ pySplit s, w.data ≠ [] := by
    intro w hw
    unfold pySplit at hw
    obtain ⟨l, hl, rfl⟩ := List.mem_map.mp hw
    have := List.of_mem_filter hl
    simpa using this
  have hm : ∃ m, multiwordAbbrevs (pySplit s) = some m := by
    cases hp : pySplit s with
    | nil => exact ⟨[], rfl⟩
    | cons w tail =>
      cases tail with
      | nil => exact ⟨[], rfl⟩
      | cons v t =>
        have hws := hp ▸ hwords
        exact ⟨_, multiwordAbbrevs_multi w v t
          (hws w (List.mem_cons_self _ _))
          (hws v (List.mem_cons_of_mem _ (List.mem_cons_self _ _)))
          (fun u hu => hws u (List.mem_cons_of_mem _ (List.mem_cons_of_mem _ hu)))⟩
  obtain ⟨m, hm⟩ := hm
  have hrs : removeSpaces s = ⟨s.data.filter (fun c => decide (c ≠ ' '))⟩ := rfl
  rw [hm, hrs, @tailAbbrevs_len2 ⟨s.data.filter (fun c => decide (c ≠ ' '))⟩ h2]
  cases m <;> rfl

/-- Witness for the amended C10. -/
theorem candidate_generation_safe_witness :
    (get_possible_abbrevs "ab").map List.isEmpty = some false :=
  candidate_generation_safe "ab" (by decide) (by decide)

/-- C6: the Previously-Assigned Matcher on `{"the": "t", "robot": "r"}`
returns "rs" for "robots" (pluralization), "tr" for "the robot"
(composition), and the no-match signal for "asdf". -/
theorem prev_abbrev_matcher_examples :
    match_to_prev_abbrevs [("the", "t"), ("robot", "r")] "robots" = some "rs"
    ∧ match_to_prev_abbrevs [("the", "t"), ("robot", "r")] "the robot" = some "tr"
    ∧ match_to_prev_abbrevs [("the", "t"), ("robot", "r")] "asdf" = none := by decide
